import Mathlib

/-!
Verification of the surreallog log-forwarding wrapper.

The development shallowly embeds the program's line splitter, the
workflow-command parser (package `ghc`), the masking and command-gating
state of the stream readers, the batching sender, and the error paths of
the websocket RPC client (package `sdb`).  Strings and byte slices are
modelled as `List Char` (one `Char` per rune of valid UTF-8 input); byte
lengths are computed through the UTF-8 size of each rune.  Recursion that
the Go code drives by an integer index over a mutating slice is embedded
with an explicit fuel parameter so that every definition is executable.
-/

namespace Surreallog

/-- Characters of a string literal, the basic text representation used here. -/
def toChars (s : String) : List Char := s.data

/-- Number of bytes of the UTF-8 encoding of one rune. -/
def utf8Len (c : Char) : Nat :=
  if c.val < 0x80 then 1
  else if c.val < 0x800 then 2
  else if c.val < 0x10000 then 3
  else 4

/-- Byte length of a rune sequence, matching Go `len` on the encoded bytes. -/
def byteLen (s : List Char) : Nat := (s.map utf8Len).sum

/-- Go slice expression `s[a:b]`. -/
def sliceList (s : List Char) (a b : Nat) : List Char := (s.take b).drop a

/-- Check that the second list begins with the first one. -/
def startsWith : List Char → List Char → Bool
  | [], _ => true
  | _ :: _, [] => false
  | p :: ps, c :: cs => p = c && startsWith ps cs

/-- Check that `pat` occurs contiguously somewhere inside `s`. -/
def containsSeq (pat : List Char) : List Char → Bool
  | [] => startsWith pat []
  | c :: cs => startsWith pat (c :: cs) || containsSeq pat cs

/-- Check that `s` ends with `pat`. -/
def endsWith (pat s : List Char) : Bool := startsWith pat.reverse s.reverse

/-- Drop the longest run of elements satisfying `p` from the end of a list. -/
def dropEndWhile (p : Char → Bool) (s : List Char) : List Char :=
  (s.reverse.dropWhile p).reverse

/-- Go map assignment `m[k] = v` for an association list. -/
def mapSet (m : List (List Char × List Char)) (k v : List Char) :
    List (List Char × List Char) :=
  match m with
  | [] => [(k, v)]
  | (k2, v2) :: r => if k2 = k then (k, v) :: r else (k2, v2) :: mapSet r k v

/-- Go map lookup `m[k]` for an association list. -/
def mapGet (m : List (List Char × List Char)) (k : List Char) :
    Option (List Char) :=
  match m with
  | [] => none
  | (k2, v2) :: r => if k2 = k then some v2 else mapGet r k

/-! ## Package ghc: whitespace trimming (`TrimLeftSpace`) -/

/-- Membership in the Go `asciiSpace` table of `ghc.go`. -/
def asciiSpace (c : Char) : Bool :=
  c = '\t' ∨ c = '\n' ∨ c = '\x0b' ∨ c = '\x0c' ∨ c = '\r' ∨ c = ' '

/-- Go `unicode.IsSpace`: the Unicode White_Space property. -/
def goIsSpace (c : Char) : Bool :=
  c = '\t' ∨ c = '\n' ∨ c = '\x0b' ∨ c = '\x0c' ∨ c = '\r' ∨ c = ' ' ∨
  c = '\x85' ∨ c = '\xa0' ∨ c = ' ' ∨
  (0x2000 ≤ c.val ∧ c.val ≤ 0x200a) ∨
  c = ' ' ∨ c = ' ' ∨ c = ' ' ∨ c = ' ' ∨ c = '　'

/-- Go `bytes.TrimFunc s unicode.IsSpace`: removes leading and trailing
runes satisfying the predicate. -/
def trimBothSpace (s : List Char) : List Char :=
  dropEndWhile goIsSpace (s.dropWhile goIsSpace)

/-- Embedding of `ghc.TrimLeftSpace`: scans leading ASCII whitespace and, on
the first byte at or above `utf8.RuneSelf` (0x80), delegates the remainder to
`bytes.TrimFunc` with `unicode.IsSpace`. -/
def TrimLeftSpace : List Char → List Char
  | [] => []
  | c :: r =>
    if 0x80 ≤ c.val then trimBothSpace (c :: r)
    else if asciiSpace c then TrimLeftSpace r
    else c :: r

/-! ## Package ghc: percent-unescaping -/

/-- Go helper `unescape(s, i, c)`: collapse the three escape bytes starting
at index `i` into the single byte `c`. -/
def unescape (s : List Char) (i : Nat) (c : Char) : List Char :=
  s.take i ++ [c] ++ s.drop (i + 3)

/-- Loop of `ghc.unescapeData`, index `i` over the in-place mutated slice,
with fuel bounding the number of iterations. -/
def unescDataLoop : Nat → List Char → Nat → List Char
  | 0, s, _ => s
  | fuel + 1, s, i =>
    if i < s.length then
      if s.get? i = some '%' ∧ i + 2 < s.length then
        if s.get? (i+1) = some '0' ∧ (s.get? (i+2) = some 'A' ∨ s.get? (i+2) = some 'a') then
          unescDataLoop fuel (unescape s i '\n') (i+1)
        else if s.get? (i+1) = some '0' ∧ (s.get? (i+2) = some 'D' ∨ s.get? (i+2) = some 'd') then
          unescDataLoop fuel (unescape s i '\r') (i+1)
        else if s.get? (i+1) = some '2' ∧ s.get? (i+2) = some '5' then
          unescDataLoop fuel (unescape s i '%') (i+1)
        else unescDataLoop fuel s (i+1)
      else unescDataLoop fuel s (i+1)
    else s

/-- Embedding of `ghc.unescapeData`. -/
def unescapeData (s : List Char) : List Char :=
  if s = [] then [] else unescDataLoop s.length s 0

/-- Loop of `ghc.unescapeProperty`, which recognizes the two extra escapes
`%2C` and `%3A` on top of those of the data field. -/
def unescPropLoop : Nat → List Char → Nat → List Char
  | 0, s, _ => s
  | fuel + 1, s, i =>
    if i < s.length then
      if s.get? i = some '%' ∧ i + 2 < s.length then
        if s.get? (i+1) = some '0' ∧ (s.get? (i+2) = some 'A' ∨ s.get? (i+2) = some 'a') then
          unescPropLoop fuel (unescape s i '\n') (i+1)
        else if s.get? (i+1) = some '0' ∧ (s.get? (i+2) = some 'D' ∨ s.get? (i+2) = some 'd') then
          unescPropLoop fuel (unescape s i '\r') (i+1)
        else if s.get? (i+1) = some '2' ∧ s.get? (i+2) = some '5' then
          unescPropLoop fuel (unescape s i '%') (i+1)
        else if s.get? (i+1) = some '2' ∧ (s.get? (i+2) = some 'C' ∨ s.get? (i+2) = some 'c') then
          unescPropLoop fuel (unescape s i ',') (i+1)
        else if s.get? (i+1) = some '3' ∧ (s.get? (i+2) = some 'A' ∨ s.get? (i+2) = some 'a') then
          unescPropLoop fuel (unescape s i ':') (i+1)
        else unescPropLoop fuel s (i+1)
      else unescPropLoop fuel s (i+1)
    else s

/-- Embedding of `ghc.unescapeProperty`; `none` models the `nil` return for
an empty input value. -/
def unescapeProperty (s : List Char) : Option (List Char) :=
  if s = [] then none else some (unescPropLoop s.length s 0)

/-! Specification-side unescaping, written after the words of the spec:
a single left-to-right pass recognizing exactly the listed escapes, the
hex letter matched case-insensitively. -/

/-- Data-field escapes per the spec. -/
def unescapeDataSpec : List Char → List Char
  | [] => []
  | [c] => [c]
  | [c, b] => [c, b]
  | c :: b :: a :: r2 =>
    if c = '%' then
      if b = '0' ∧ (a = 'A' ∨ a = 'a') then '\n' :: unescapeDataSpec r2
      else if b = '0' ∧ (a = 'D' ∨ a = 'd') then '\r' :: unescapeDataSpec r2
      else if b = '2' ∧ a = '5' then '%' :: unescapeDataSpec r2
      else c :: unescapeDataSpec (b :: a :: r2)
    else c :: unescapeDataSpec (b :: a :: r2)

/-- Property-value escapes per the spec: data escapes plus `%2C` and `%3A`. -/
def unescapePropSpec : List Char → List Char
  | [] => []
  | [c] => [c]
  | [c, b] => [c, b]
  | c :: b :: a :: r2 =>
    if c = '%' then
      if b = '0' ∧ (a = 'A' ∨ a = 'a') then '\n' :: unescapePropSpec r2
      else if b = '0' ∧ (a = 'D' ∨ a = 'd') then '\r' :: unescapePropSpec r2
      else if b = '2' ∧ a = '5' then '%' :: unescapePropSpec r2
      else if b = '2' ∧ (a = 'C' ∨ a = 'c') then ',' :: unescapePropSpec r2
      else if b = '3' ∧ (a = 'A' ∨ a = 'a') then ':' :: unescapePropSpec r2
      else c :: unescapePropSpec (b :: a :: r2)
    else c :: unescapePropSpec (b :: a :: r2)

/-! ## Package ghc: the workflow-command parser `PraseGHC` -/

/-- Parsed command: `Name`, unescaped `Data`, and the raw property bag
(`opt` map of the source, values still escaped are already unescaped at
store time, exactly as in the source). -/
structure GHC where
  name : List Char
  data : List Char
  opts : List (List Char × List Char)
deriving DecidableEq, Repr

/-- The `if prop := unescapeProperty(...); prop != nil` store step used at
the `,` and `::` sites of the parser. -/
def storeProp (opt : List (List Char × List Char)) (key raw : List Char) :
    List (List Char × List Char) :=
  match unescapeProperty raw with
  | none => opt
  | some v => mapSet opt key v

/-- Result of the inner property-scanning loop of `PraseGHC`. -/
inductive InnerRes where
  | ierr : InnerRes
  | inoClose : List (List Char × List Char) → InnerRes
  | idone : List (List Char × List Char) → Nat → InnerRes
deriving DecidableEq

/-- Inner loop of `PraseGHC` (index `j`, segment start `k`, flag `val`,
current `key`, accumulated property bag), scanning `key=value` pairs up to
the closing `::`. -/
def parseInner : Nat → List Char → Nat → Nat → Bool → List Char →
    List (List Char × List Char) → InnerRes
  | 0, _, _, _, _, _, opt => .inoClose opt
  | fuel + 1, s, j, k, val, key, opt =>
    if j < s.length then
      if s.get? j = some '=' then
        if val then .ierr
        else parseInner fuel s (j+1) (j+1) true (sliceList s k j) opt
      else if s.get? j = some ',' then
        if !val then .ierr
        else parseInner fuel s (j+1) (j+1) false [] (storeProp opt key (sliceList s k j))
      else if s.get? j = some ':' then
        if j = s.length - 1 ∨ s.get? (j+1) ≠ some ':' then .ierr
        else .idone (if val then storeProp opt key (sliceList s k j) else opt) (j+2)
      else parseInner fuel s (j+1) k val key opt
    else .inoClose opt

/-- Outer loop of `PraseGHC`: scan from index `i` for the `:` closing the
name/data split or a space opening the property section. -/
def parseOuter : Nat → List Char → Nat → List (List Char × List Char) → Option GHC
  | 0, _, _, _ => none
  | fuel + 1, s, i, opt =>
    if i < s.length then
      if s.get? i = some ':' then
        if i = s.length - 1 ∨ s.get? (i+1) ≠ some ':' then none
        else some ⟨sliceList s 2 i, unescapeData (s.drop (i+2)), opt⟩
      else if s.get? i = some ' ' then
        match parseInner (s.length + 1) s (i+1) (i+1) false [] opt with
        | .ierr => none
        | .idone opt2 d => some ⟨sliceList s 2 i, unescapeData (s.drop d), opt2⟩
        | .inoClose opt2 => parseOuter fuel s (i+1) opt2
      else parseOuter fuel s (i+1) opt
    else none

/-- Embedding of `ghc.PraseGHC` (the source spells the name this way):
trims leading whitespace, rejects lines of at most 4 bytes or without the
leading `::`, then scans; `none` models the `ErrSyntax` return. -/
def PraseGHC (s0 : List Char) : Option GHC :=
  let s := TrimLeftSpace s0
  if byteLen s ≤ 4 ∨ s.get? 0 ≠ some ':' ∨ s.get? 1 ≠ some ':' then none
  else parseOuter (s.length + 1) s 2 []

/-! ## Package ghc: option coercion (`GHCOptions`) -/

/-- A coerced property value: Go `any` holding a string or an `int64`. -/
inductive OptVal where
  | str : List Char → OptVal
  | int : Int → OptVal
deriving DecidableEq, Repr

/-- Declared coercion rules, mirroring `String`, `NaturalNum`,
`StringWithDefault` and `NaturalNumWithDefault` of the source. -/
inductive Rule where
  | rstr : Rule
  | rnat : Rule
  | rstrD : List Char → Rule
  | rnatD : Int → Rule
deriving DecidableEq

/-- Outcome for one declared key: omitted (the `errIgnore` path), a value,
or a hard error aborting the whole extraction. -/
inductive KeyOut where
  | omit : KeyOut
  | val : OptVal → KeyOut
  | err : KeyOut
deriving DecidableEq

/-- Decimal digits to a number; `none` on a non-digit or empty input. -/
def digitsVal : List Char → Option Nat
  | [] => none
  | [c] => if c.isDigit then some (c.toNat - '0'.toNat) else none
  | c :: r =>
    if c.isDigit then
      match digitsVal r with
      | none => none
      | some n => some ((c.toNat - '0'.toNat) * 10 ^ r.length + n)
    else none

/-- Go `json.Unmarshal` of raw bytes into an `int64`: optional surrounding
JSON whitespace, an optional minus sign, digits without a redundant leading
zero, and the value must fit in an `int64`. -/
def jsonInt64 (s : List Char) : Option Int :=
  let t := dropEndWhile (fun c => c = ' ' ∨ c = '\t' ∨ c = '\n' ∨ c = '\r')
    (s.dropWhile (fun c => c = ' ' ∨ c = '\t' ∨ c = '\n' ∨ c = '\r'))
  let core := fun (neg : Bool) (ds : List Char) =>
    match ds with
    | [] => none
    | d :: dr =>
      if d = '0' ∧ dr ≠ [] then none
      else match digitsVal (d :: dr) with
        | none => none
        | some n =>
          if neg then
            if n ≤ 2 ^ 63 then some (-(n : Int)) else none
          else
            if n ≤ 2 ^ 63 - 1 then some (n : Int) else none
  match t with
  | '-' :: ds => core true ds
  | ds => core false ds

/-- Embedding of `ghc.naturalNumOption` on a present raw value:
JSON-decode as `int64`, then reject values below 1 (`ErrOutOfRange`). -/
def naturalNumOut (s : List Char) : KeyOut :=
  match jsonInt64 s with
  | none => .err
  | some n => if n < 1 then .err else .val (.int n)

/-- Apply one declared rule to the looked-up raw value (present or absent). -/
def evalRule : Rule → Option (List Char) → KeyOut
  | .rstr, none => .omit
  | .rstr, some v => .val (.str v)
  | .rnat, none => .omit
  | .rnat, some v => naturalNumOut v
  | .rstrD d, none => .val (.str d)
  | .rstrD _, some v => .val (.str v)
  | .rnatD d, none => .val (.int d)
  | .rnatD _, some v => naturalNumOut v

/-- Embedding of `GHCOptions.Map`: evaluate every declared key against the
property bag; a hard error on any key aborts the whole extraction. -/
def optsMap (defs : List (List Char × Rule))
    (data : List (List Char × List Char)) :
    Option (List (List Char × OptVal)) :=
  match defs with
  | [] => some []
  | (k, r) :: rest =>
    match evalRule r (mapGet data k) with
    | .err => none
    | .omit => optsMap rest data
    | .val v =>
      match optsMap rest data with
      | none => none
      | some m => some ((k, v) :: m)



/-! ## main.go: the stream splitter `splitFunc` -/

/-- Loop of `splitFunc` over the data, searching for the first LF, CRLF or
bare CR terminator; returns the advance count and the token, `none` when no
terminator occurs. -/
def splitScan : Nat → List Char → Nat → Option (Nat × List Char)
  | 0, _, _ => none
  | fuel + 1, data, i =>
    if i < data.length then
      if data.get? i = some '\n' then
        if 0 < i ∧ data.get? (i-1) = some '\r' then some (i+1, data.take (i-1))
        else some (i+1, data.take i)
      else if data.get? i = some '\r' then
        if i = data.length - 1 ∨ data.get? (i+1) ≠ some '\n' then some (i+1, data.take i)
        else splitScan fuel data (i+1)
      else splitScan fuel data (i+1)
    else none

/-- Embedding of `splitFunc` (advance, token); `token = none` models the
`nil` token telling the scanner to stop or read more. -/
def splitFunc (data : List Char) (atEOF : Bool) : Nat × Option (List Char) :=
  if atEOF ∧ data = [] then (0, none)
  else
    match splitScan (data.length + 1) data 0 with
    | some (n, tok) => (n, some tok)
    | none => if atEOF then (data.length, some data) else (0, none)

/-- Driver corresponding to `bufio.Scanner` over the complete input: apply
`splitFunc` with `atEOF` to the remaining bytes until it yields no token. -/
def scanLines : Nat → List Char → List (List Char)
  | 0, _ => []
  | fuel + 1, data =>
    match splitFunc data true with
    | (_, none) => []
    | (n, some tok) => tok :: scanLines fuel (data.drop n)

/-- All lines of a complete input. -/
def scanLinesAll (data : List Char) : List (List Char) :=
  scanLines (data.length + 1) data

/-- Specification-side line decomposition: the first line of the input and
the remainder behind its terminator (`none` when the input holds no further
terminator), a terminator being LF, CRLF, or a CR not followed by LF. -/
def breakLine : List Char → List Char × Option (List Char)
  | [] => ([], none)
  | [c] =>
    if c = '\n' then ([], some [])
    else if c = '\r' then ([], some [])
    else ([c], none)
  | c :: c2 :: r =>
    if c = '\n' then ([], some (c2 :: r))
    else if c = '\r' then
      if c2 = '\n' then ([], some r) else ([], some (c2 :: r))
    else
      let p := breakLine (c2 :: r)
      (c :: p.1, p.2)

theorem breakLine_some_length {s l r : List Char} (h : breakLine s = (l, some r)) :
    r.length < s.length := by
  induction s generalizing l r with
  | nil => simp [breakLine] at h
  | cons c cs ih =>
    match cs with
    | [] =>
      simp only [breakLine] at h
      split_ifs at h <;> simp_all
    | c2 :: r0 =>
      simp only [breakLine] at h
      split_ifs at h
      · cases h; simp
      · cases h; simp; omega
      · cases h; simp
      · simp only [Prod.mk.injEq] at h
        obtain ⟨-, h2⟩ := h
        have := ih (l := (breakLine (c2 :: r0)).1) (r := r) (by rw [← h2])
        simp at this ⊢
        omega

/-- Specification-side splitter: the lines obtained by cutting the input at
every terminator, terminators stripped, with any unterminated trailing
bytes as one final line (and no final line after a trailing terminator). -/
def splitLinesSpec (s : List Char) : List (List Char) :=
  if s = [] then []
  else
    match h : breakLine s with
    | (l, none) => [l]
    | (l, some r) => l :: splitLinesSpec r
termination_by s.length
decreasing_by exact breakLine_some_length h

/-! ## main.go: masking -/

/-- The fixed replacement marker `***`. -/
def masking : List Char := toChars "***"

/-- Loop of Go `bytes.ReplaceAll s pat new` for a non-empty pattern:
replace leftmost non-overlapping occurrences. -/
def replaceLoop (pat new : List Char) : Nat → List Char → List Char
  | 0, s => s
  | fuel + 1, s =>
    if startsWith pat s then
      if pat.length = 0 then s
      else new ++ replaceLoop pat new fuel (s.drop pat.length)
    else
      match s with
      | [] => []
      | c :: r => c :: replaceLoop pat new fuel r

/-- Go `bytes.ReplaceAll s pat new`; with an empty pattern the marker goes
before every rune and at the end, as in the Go library. -/
def replaceAllGo (s pat new : List Char) : List Char :=
  if pat = [] then new ++ s.flatMap (fun c => [c] ++ new)
  else replaceLoop pat new s.length s

/-- Embedding of `mask(s, masks)`: sequential `bytes.ReplaceAll` of every
registered token by `***`, in registration order. -/
def maskF (s : List Char) (masks : List (List Char)) : List Char :=
  masks.foldl (fun acc m => replaceAllGo acc m masking) s

/-! ## main.go: the event model and the stream reader -/

/-- One captured event (the `line` struct without its wall-clock field):
`kind` is 1 for stdout, 2 for stderr, -1 for a command. -/
structure Ev where
  kind : Int
  size : Nat
  text : List Char
  data : List Char
  opts : List (List Char × OptVal)
deriving DecidableEq, Repr

/-- State local to one `streamReader` invocation: the mask list, the gate
flag `enable` and the resume token `endtoken`. -/
structure RState where
  masks : List (List Char)
  enable : Bool
  endtoken : List Char
deriving DecidableEq, Repr

/-- Reader-local initial state: no masks, gate enabled, empty token. -/
def initR : RState := ⟨[], true, []⟩

/-- Construction `newLine(fd1, len(s), string(s))` on the already-masked
line bytes. -/
def newLineEv (fd1 : Bool) (s : List Char) : Ev :=
  ⟨if fd1 then 1 else 2, byteLen s, s, [], []⟩

/-- The plain-text fall-through at the bottom of the reader loop:
`s = mask(s, masks); l <- newLine(fd1, len(s), string(s))`. -/
def plainOut (fd1 : Bool) (st : RState) (s : List Char) : RState × Option Ev :=
  (st, some (newLineEv fd1 (maskF s st.masks)))

/-- Declared option rules for `notice`, `warning` and `error`, in the order
of the source assignments. -/
def errDefs : List (List Char × Rule) :=
  [(toChars "title", .rstr),
   (toChars "file", .rstrD (toChars ".github")),
   (toChars "col", .rnat),
   (toChars "endColumn", .rnat),
   (toChars "line", .rnatD 1),
   (toChars "endLine", .rnatD 1)]

/-- One iteration of the `streamReader` scan loop on line `s`: returns the
updated reader state and the event sent to the channel, if any. -/
def streamStep (fd1 : Bool) (st : RState) (s : List Char) : RState × Option Ev :=
  if fd1 ∧ st.enable then
    match PraseGHC s with
    | some c =>
      if c.name = toChars "debug" then
        (st, some ⟨-1, byteLen s, c.name, maskF c.data st.masks, []⟩)
      else if c.name = toChars "notice" ∨ c.name = toChars "warning" ∨
          c.name = toChars "error" then
        match optsMap errDefs c.opts with
        | none => plainOut fd1 st s
        | some o => (st, some ⟨-1, byteLen s, c.name, maskF c.data st.masks, o⟩)
      else if c.name = toChars "group" then
        (st, some ⟨-1, byteLen s, c.name, maskF c.data st.masks, []⟩)
      else if c.name = toChars "endgroup" then
        (st, some ⟨-1, byteLen s, c.name, [], []⟩)
      else if c.name = toChars "add-mask" then
        if 0 < c.data.length ∧ 0 < (TrimLeftSpace c.data).length then
          ({ st with masks := st.masks ++ [c.data] }, none)
        else plainOut fd1 st s
      else if c.name = toChars "stop-commands" then
        if !st.enable then ({ st with enable := false, endtoken := c.data }, none)
        else plainOut fd1 st s
      else
        if !st.enable ∧ c.name = st.endtoken then
          ({ st with enable := true, endtoken := [] }, none)
        else plainOut fd1 st s
    | none => plainOut fd1 st s
  else plainOut fd1 st s

/-- Fold of `streamStep` over the scanned lines, collecting the emitted
events in order. -/
def streamRun (fd1 : Bool) : RState → List (List Char) → RState × List Ev
  | st, [] => (st, [])
  | st, s :: rest =>
    let p := streamStep fd1 st s
    let q := streamRun fd1 p.1 rest
    (q.1, match p.2 with | none => q.2 | some e => e :: q.2)

/-- Embedding of one `streamReader` task: the mask list, gate and token are
locals initialized afresh for each stream. -/
def streamReader (fd1 : Bool) (lines : List (List Char)) : List Ev :=
  (streamRun fd1 initR lines).2

/-! ## main.go: the batching sender -/

/-- Modulus of Go `uint64` arithmetic. -/
def U64 : Nat := 2 ^ 64

/-- Sender state guarded by its mutex: the buffer, the running byte total,
and whether an idle-flush timer is armed. -/
structure Sender where
  buf : List Ev
  bufSize : Nat
  timer : Bool
deriving DecidableEq, Repr

/-- State made by `newSender`. -/
def newSender : Sender := ⟨[], 0, false⟩

/-- Embedding of `sender.flush`: no-op on an empty buffer; otherwise one
submit whose outcome `ok` is only logged, then the buffer, byte total and
timer are cleared unconditionally. -/
def senderFlush (ok : Bool) (st : Sender) : Sender :=
  if st.buf.length = 0 then st
  else
    let _ := ok
    ⟨[], 0, false⟩

/-- Embedding of `sender.write`: nil lines ignored; append the event, add
its size in `uint64` arithmetic, re-arm the idle timer, and flush at once
when the total reaches the configured threshold `mbs`. -/
def senderWrite (mbs : Nat) (ok : Bool) (st : Sender) (l : Option Ev) : Sender :=
  match l with
  | none => st
  | some l =>
    let st2 : Sender := ⟨st.buf ++ [l], (st.bufSize + l.size) % U64, true⟩
    if mbs ≤ st2.bufSize then senderFlush ok st2 else st2

/-- Interleaving of sender operations: writes from the queue consumer and
flushes from the idle timer or shutdown, each with the outcome of any
submit it performs. -/
inductive SOp where
  | write : Option Ev → Bool → SOp
  | flush : Bool → SOp
deriving DecidableEq

/-- Run a sequence of sender operations. -/
def senderRun (mbs : Nat) : Sender → List SOp → Sender
  | st, [] => st
  | st, (.write l ok) :: rest => senderRun mbs (senderWrite mbs ok st l) rest
  | st, (.flush ok) :: rest => senderRun mbs (senderFlush ok st) rest

/-! ## Package sdb: RPC call completion and response routing -/

/-- The apostrophe character used by the sdb error messages. -/
def quoteCh : Char := Char.ofNat 39

/-- Decimal text of an integer, as `strconv.Itoa`. -/
def intToChars (n : Int) : List Char := (toString n).data

/-- The timeout error text of `SDB.rpc`, spelling included. -/
def timeoutMsg (method : List Char) : List Char :=
  [quoteCh] ++ method ++ [quoteCh] ++ toChars " rpc timed out after 5 secconds"

/-- Application error carried by a response frame. -/
structure RpcErr where
  code : Int
  message : List Char
deriving DecidableEq

/-- Which arm of the `select` in `SDB.rpc` fires: the 5-second timeout, a
closed response channel, or a delivered response. -/
inductive RpcOutcome (α : Type) where
  | timeout : RpcOutcome α
  | chanClosed : RpcOutcome α
  | resp : Option RpcErr → α → RpcOutcome α

/-- The value returned by `SDB.rpc` for each select outcome, with the error
texts of the source. -/
def rpcFinish {α : Type} (method : List Char) (id : Int) (o : RpcOutcome α) :
    Except (List Char) α :=
  match o with
  | .timeout => .error (timeoutMsg method)
  | .chanClosed =>
    .error ([quoteCh] ++ method ++ [quoteCh] ++ toChars " rpc channel(" ++
      intToChars id ++ toChars ") is closed")
  | .resp (some e) _ =>
    .error ([quoteCh] ++ method ++ [quoteCh] ++ toChars " rpc (" ++
      intToChars id ++ toChars ") is failed (" ++ intToChars e.code ++
      toChars "): " ++ e.message)
  | .resp none r => .ok r

/-- Correlation table keyed by request id, as a membership function. -/
def delChan (t : Int → Bool) (id : Int) : Int → Bool :=
  fun j => if j = id then false else t j

/-- Return value and correlation table after `SDB.rpc` returns: the
deferred `delChan` runs on every path out of the call. -/
def rpcReturn {α : Type} (t : Int → Bool) (method : List Char) (id : Int)
    (o : RpcOutcome α) : Except (List Char) α × (Int → Bool) :=
  (rpcFinish method id o, delChan t id)

/-- Routing decision of `SDB.listen` for a decoded response: deliver when a
slot is registered under the id, otherwise drop silently. -/
def listenDispatch (t : Int → Bool) (respId : Int) : Bool := t respId


/-! ## Helper lemmas -/

theorem startsWith_self_append (p r : List Char) : startsWith p (p ++ r) = true := by
  induction p with
  | nil => rfl
  | cons c cs ih => simp [startsWith, ih]

theorem containsSeq_self_append (p r : List Char) : containsSeq p (p ++ r) = true := by
  cases p with
  | nil =>
    cases r with
    | nil => rfl
    | cons c cs => simp [containsSeq, startsWith]
  | cons c cs =>
    have h : startsWith (c :: cs) ((c :: cs) ++ r) = true := startsWith_self_append _ _
    simp only [List.cons_append] at h
    simp [containsSeq, h]

theorem containsSeq_cons_append (p : List Char) (c : Char) (r : List Char) :
    containsSeq p (c :: (p ++ r)) = true := by
  simp [containsSeq, containsSeq_self_append]

theorem maskF_nil (s : List Char) : maskF s [] = s := rfl

/-- Sender invariant: the byte total is the `uint64` sum of the sizes of
the buffered events. -/
def senderInv (st : Sender) : Prop :=
  st.bufSize = ((st.buf.map Ev.size).sum) % U64

theorem senderFlush_inv (ok : Bool) (st : Sender) (h : senderInv st) :
    senderInv (senderFlush ok st) := by
  unfold senderFlush
  split
  · exact h
  · simp [senderInv]

theorem senderWrite_inv (mbs : Nat) (ok : Bool) (st : Sender) (l : Option Ev)
    (h : senderInv st) : senderInv (senderWrite mbs ok st l) := by
  unfold senderWrite
  match l with
  | none => exact h
  | some l =>
    simp only
    have h2 : senderInv ⟨st.buf ++ [l], (st.bufSize + l.size) % U64, true⟩ := by
      simp only [senderInv] at h ⊢
      simp [h, Nat.mod_add_mod]
    split
    · exact senderFlush_inv ok _ h2
    · exact h2

theorem senderRun_inv (mbs : Nat) (ops : List SOp) (st : Sender)
    (h : senderInv st) : senderInv (senderRun mbs st ops) := by
  induction ops generalizing st with
  | nil => exact h
  | cons op rest ih =>
    cases op with
    | write l ok => exact ih _ (senderWrite_inv mbs ok st l h)
    | flush ok => exact ih _ (senderFlush_inv ok st h)

/-! ## Claim theorems -/

/-- C3: in every reachable sender state the running byte total is the sum
of the sizes of the buffered events (exactly so whenever that sum fits in a
`uint64`); a flush on an empty buffer is a no-op; a flush on a non-empty
buffer clears the buffer and the byte total, with a result independent of
whether the submit succeeded; and after any flush of a reachable state the
buffer is empty and the total is 0. -/
theorem sender_buffer_invariant (mbs : Nat) (ops : List SOp) (ok : Bool) (st : Sender) :
    ((senderRun mbs newSender ops).bufSize =
      (((senderRun mbs newSender ops).buf.map Ev.size).sum) % U64)
    ∧ ((((senderRun mbs newSender ops).buf.map Ev.size).sum < U64) →
        (senderRun mbs newSender ops).bufSize =
          (((senderRun mbs newSender ops).buf.map Ev.size).sum))
    ∧ (st.buf = [] → senderFlush ok st = st)
    ∧ (st.buf ≠ [] → (senderFlush ok st).buf = [] ∧ (senderFlush ok st).bufSize = 0)
    ∧ (∀ ok2, senderFlush ok st = senderFlush ok2 st)
    ∧ ((senderFlush ok (senderRun mbs newSender ops)).buf = []
        ∧ (senderFlush ok (senderRun mbs newSender ops)).bufSize = 0) := by
  have hrun : senderInv (senderRun mbs newSender ops) :=
    senderRun_inv mbs ops newSender rfl
  refine ⟨hrun, ?_, ?_, ?_, ?_, ?_⟩
  · intro hlt
    rw [hrun]
    exact Nat.mod_eq_of_lt hlt
  · intro hbuf
    unfold senderFlush
    rw [if_pos (by simp [hbuf])]
  · intro hbuf
    unfold senderFlush
    rw [if_neg (by simpa using hbuf)]
    exact ⟨rfl, rfl⟩
  · intro ok2
    unfold senderFlush
    split <;> rfl
  · by_cases hbuf : (senderRun mbs newSender ops).buf = []
    · unfold senderFlush
      rw [if_pos (by simp [hbuf])]
      refine ⟨hbuf, ?_⟩
      rw [hrun, hbuf]
      rfl
    · unfold senderFlush
      rw [if_neg (by simpa using hbuf)]
      exact ⟨rfl, rfl⟩

/-- C3 witness: the invariant and flush behavior at a concrete run. -/
theorem sender_buffer_invariant_witness :
    (senderRun 100 newSender [.write (some ⟨1, 5, [], [], []⟩) true]).bufSize = 5
    ∧ (senderFlush true (⟨[], 0, false⟩ : Sender) = ⟨[], 0, false⟩)
    ∧ (senderFlush false (⟨[⟨1, 5, [], [], []⟩], 5, true⟩ : Sender)).buf = []
    ∧ (senderFlush false (⟨[⟨1, 5, [], [], []⟩], 5, true⟩ : Sender)).bufSize = 0 := by
  have h := sender_buffer_invariant 100 [.write (some ⟨1, 5, [], [], []⟩) true] false
    ⟨[⟨1, 5, [], [], []⟩], 5, true⟩
  have h0 := sender_buffer_invariant 100 [.write (some ⟨1, 5, [], [], []⟩) true] true
    (⟨[], 0, false⟩ : Sender)
  refine ⟨?_, ?_, ?_⟩
  · have := h.2.1 (by decide)
    simpa using this
  · exact h0.2.2.1 rfl
  · have := h.2.2.2.1 (by decide)
    exact this

/-- C4 counterexample: for the call of method `query` with request id 1
that times out, the returned error text does not contain the id. -/
theorem rpc_timeout_counterexample :
    @rpcFinish Nat (toChars "query") 1 RpcOutcome.timeout =
      .error (timeoutMsg (toChars "query"))
    ∧ containsSeq (intToChars 1) (timeoutMsg (toChars "query")) = false := by
  exact ⟨rfl, by decide⟩

/-- C4 amended: a timed-out call returns the protocol-timeout error naming
the method (but not the id), the delivery slot is unregistered when the
call returns, and a response bearing that id afterwards finds no slot and
is dropped. -/
theorem rpc_timeout_amended {α : Type} (t : Int → Bool) (method : List Char) (id : Int) :
    @rpcReturn α t method id RpcOutcome.timeout =
      (.error (timeoutMsg method), delChan t id)
    ∧ containsSeq method (timeoutMsg method) = true
    ∧ delChan t id id = false
    ∧ listenDispatch (delChan t id) id = false := by
  refine ⟨rfl, ?_, ?_, ?_⟩
  · unfold timeoutMsg
    have h := containsSeq_cons_append method quoteCh
      ([quoteCh] ++ toChars " rpc timed out after 5 secconds")
    simpa [List.append_assoc] using h
  · simp [delChan]
  · simp [listenDispatch, delChan]

/-- C10: every line whose trimmed form is at most 4 bytes long is rejected
by the parser with a syntax error; in particular the 4-byte line `::::` is
treated as plain text by the reader. -/
theorem praseGHC_short_line_rejected (s : List Char)
    (h : byteLen (TrimLeftSpace s) ≤ 4) :
    PraseGHC s = none
    ∧ streamStep true initR (toChars "::::") =
        (initR, some (newLineEv true (toChars "::::"))) := by
  constructor
  · unfold PraseGHC
    rw [if_pos (Or.inl h)]
  · decide

/-- C10 witness: the general rejection applied to the line `::::`. -/
theorem praseGHC_short_line_rejected_witness :
    PraseGHC (toChars "::::") = none
    ∧ streamStep true initR (toChars "::::") =
        (initR, some (newLineEv true (toChars "::::"))) :=
  praseGHC_short_line_rejected (toChars "::::") (by decide)


theorem mask_applied_plain (fd1 : Bool) (st : RState) (s : List Char)
    (st2 : RState) (e : Ev) (h : streamStep fd1 st s = (st2, some e))
    (hk : e.kind ≠ -1) : e.text = maskF s st.masks := by
  unfold streamStep at h
  repeat' split at h
  all_goals simp_all [plainOut, newLineEv]
  all_goals obtain ⟨h1, h2⟩ := h
  all_goals subst h1
  all_goals subst h2
  all_goals first
    | rfl
    | exact absurd rfl hk

theorem secondary_unmasked (lines : List (List Char)) :
    streamReader false lines = lines.map fun s => newLineEv false s := by
  unfold streamReader
  induction lines with
  | nil => rfl
  | cons s rest ih =>
    have hstep : streamStep false initR s = (initR, some (newLineEv false s)) := by
      simp [streamStep, plainOut, initR, maskF_nil]
    simp only [streamRun, hstep, List.map_cons]
    simpa using ih

/-- C2 counterexample: processing `::add-mask::ichiro` on the primary
stream registers the token in that reader's own list, yet the secondary
reader, whose mask list is a fresh local, emits a plain line containing
`ichiro` untouched — the registered token is not applied to the secondary
stream, against the claimed shared mask set. -/
theorem mask_not_shared_counterexample :
    (streamRun true initR [toChars "::add-mask::ichiro"]).1.masks = [toChars "ichiro"]
    ∧ streamReader false [toChars "ichiro"] = [newLineEv false (toChars "ichiro")]
    ∧ maskF (toChars "ichiro") [toChars "ichiro"] = masking
    ∧ (newLineEv false (toChars "ichiro")).text ≠ masking := by decide

/-- C2 amended: masking is per reader task. Every plain event either
reader emits carries the line with every token of that reader's own mask
list replaced; the secondary reader never interprets commands and its mask
list stays empty, so its lines are emitted verbatim. -/
theorem mask_per_reader_amended :
    (∀ (fd1 : Bool) (st : RState) (s : List Char) (st2 : RState) (e : Ev),
        streamStep fd1 st s = (st2, some e) → e.kind ≠ -1 →
        e.text = maskF s st.masks)
    ∧ (∀ lines, streamReader false lines = lines.map fun s => newLineEv false s) :=
  ⟨mask_applied_plain, secondary_unmasked⟩

/-- C2 amended witness at a concrete line for each stream. -/
theorem mask_per_reader_amended_witness :
    (newLineEv true (toChars "hi")).text = maskF (toChars "hi") initR.masks
    ∧ streamReader false [toChars "hi"] = [newLineEv false (toChars "hi")] := by
  refine ⟨?_, ?_⟩
  · exact mask_per_reader_amended.1 true initR (toChars "hi") initR
      (newLineEv true (toChars "hi")) (by decide) (by decide)
  · simpa using mask_per_reader_amended.2 [toChars "hi"]

/-- C1: evaluation of the reader on the claimed line sequence. The inner
`if !enable` of the `stop-commands` case is unreachable (the whole command
block runs only while `enable` holds), so the gate never disables: the
`stop-commands` line itself is emitted as plain text, `::add-mask::x`
still registers `x`, `::TOKEN` is a syntax error emitted as plain text,
and the final line has both `x` and `y` masked. -/
theorem stopCommands_gate_dead_eval :
    streamReader true [toChars "::stop-commands::TOKEN", toChars "::add-mask::x",
      toChars "::TOKEN", toChars "::add-mask::y", toChars "x y"] =
    [newLineEv true (toChars "::stop-commands::TOKEN"),
     newLineEv true (toChars "::TOKEN"),
     newLineEv true (toChars "*** ***")]
    ∧ (streamRun true initR [toChars "::stop-commands::TOKEN"]).1 = initR := by decide

/-- C5: the line `::error file=foo.yml,line=10::Wrong`, gate enabled and
no masks, yields the command event named `error`, data `Wrong`, and the
property map holding exactly `file`, `line = 10` and the defaulted
`endLine = 1`, with no `col`, `endColumn` or `title` entry. -/
theorem error_command_event_eval :
    streamStep true initR (toChars "::error file=foo.yml,line=10::Wrong") =
      (initR, some ⟨-1, 35, toChars "error", toChars "Wrong",
        [(toChars "file", .str (toChars "foo.yml")),
         (toChars "line", .int 10),
         (toChars "endLine", .int 1)]⟩) := by decide

/-- C8 counterexample: the line `::add-mask::` parses as an `add-mask`
command with empty data, and the reader does emit an event for it — the
raw line as plain text — rather than dropping the line. -/
theorem addMask_empty_counterexample :
    PraseGHC (toChars "::add-mask::") = some ⟨toChars "add-mask", [], []⟩
    ∧ streamStep true initR (toChars "::add-mask::") =
        (initR, some (newLineEv true (toChars "::add-mask::")))
    ∧ (streamStep true initR (toChars "::add-mask::")).2 ≠ none := by decide

/-- C8 amended: a primary-stream line parsing as `add-mask` whose data is
empty after trimming registers no mask token, and the line is emitted as a
plain-text event (the raw line, masked), not dropped. -/
theorem addMask_empty_amended (st : RState) (s : List Char) (c : GHC)
    (hp : PraseGHC s = some c) (hn : c.name = toChars "add-mask")
    (ht : TrimLeftSpace c.data = []) :
    streamStep true st s = (st, some (newLineEv true (maskF s st.masks))) := by
  have hfalse : ¬(0 < c.data.length ∧ 0 < (TrimLeftSpace c.data).length) := by
    simp [ht]
  have h1 : ¬(c.name = toChars "debug") := by rw [hn]; decide
  have h2 : ¬(c.name = toChars "notice" ∨ c.name = toChars "warning" ∨
      c.name = toChars "error") := by rw [hn]; decide
  have h3 : ¬(c.name = toChars "group") := by rw [hn]; decide
  have h4 : ¬(c.name = toChars "endgroup") := by rw [hn]; decide
  unfold streamStep
  split
  · split
    · rename_i c2 heq
      rw [hp] at heq
      injection heq with heq2
      subst heq2
      rw [if_neg h1, if_neg h2, if_neg h3, if_neg h4, if_pos hn, if_neg hfalse]
      rfl
    · rename_i heq
      rw [hp] at heq
      exact absurd heq (by simp)
  · rfl

/-- C8 amended witness: the whitespace-only data line `::add-mask:: `. -/
theorem addMask_empty_amended_witness :
    streamStep true initR (toChars "::add-mask:: ") =
      (initR, some (newLineEv true (maskF (toChars "::add-mask:: ") initR.masks))) :=
  addMask_empty_amended initR (toChars "::add-mask:: ")
    ⟨toChars "add-mask", [' '], []⟩ (by decide) (by decide) (by decide)

/-- C9: at the line NBSP `a` SPACE the trimming delegates to the
both-sided `bytes.TrimFunc`, so the trailing space is removed as well: the
result `a` is not a suffix of the line and the trailing byte is lost. -/
theorem trimLeftSpace_not_suffix_eval :
    TrimLeftSpace ['\xa0', 'a', ' '] = ['a']
    ∧ endsWith (TrimLeftSpace ['\xa0', 'a', ' ']) ['\xa0', 'a', ' '] = false := by
  decide


/-! ## Equivalence of the unescape loops with their specification -/

theorem getq_add (pre rest : List Char) (k : Nat) :
    (pre ++ rest).get? (pre.length + k) = rest.get? k := by
  rw [List.get?_append_right (Nat.le_add_right _ _)]
  simp

theorem drop_append3 (pre : List Char) (x y z : Char) (r : List Char) :
    (pre ++ x :: y :: z :: r).drop (pre.length + 3) = r := by
  have h : pre ++ x :: y :: z :: r = (pre ++ [x, y, z]) ++ r := by simp
  rw [h, show pre.length + 3 = (pre ++ [x, y, z]).length by simp, List.drop_left]

theorem unescape_append (pre : List Char) (x y z : Char) (r : List Char) (ch : Char) :
    unescape (pre ++ x :: y :: z :: r) pre.length ch = (pre ++ [ch]) ++ r := by
  unfold unescape
  rw [List.take_left, drop_append3]

theorem unescDataLoop_eq :
    ∀ (fuel : Nat) (rest pre : List Char), rest.length ≤ fuel →
      unescDataLoop fuel (pre ++ rest) pre.length = pre ++ unescapeDataSpec rest := by
  intro fuel
  induction fuel with
  | zero =>
    intro rest pre hf
    have h0 : rest = [] := List.eq_nil_of_length_eq_zero (Nat.le_zero.mp hf)
    subst h0
    simp [unescDataLoop, unescapeDataSpec]
  | succ fuel ih =>
    intro rest pre hf
    match rest with
    | [] => simp [unescDataLoop, unescapeDataSpec]
    | c :: r =>
      have hg0 : (pre ++ c :: r).get? pre.length = some c := by
        have h := getq_add pre (c :: r) 0
        simpa using h
      have hg1 : (pre ++ c :: r).get? (pre.length + 1) = (c :: r).get? 1 :=
        getq_add pre (c :: r) 1
      have hg2 : (pre ++ c :: r).get? (pre.length + 2) = (c :: r).get? 2 :=
        getq_add pre (c :: r) 2
      have hi : pre.length < (pre ++ c :: r).length := by simp
      simp only [unescDataLoop, if_pos hi]
      match r with
      | [] =>
        have hna : ¬((pre ++ [c]).get? pre.length = some '%' ∧
            pre.length + 2 < (pre ++ [c]).length) := by
          rintro ⟨-, h2⟩
          simp at h2
        rw [if_neg hna]
        have hih := ih [] (pre ++ [c]) (by simp)
        simp only [List.append_nil] at hih
        rw [show pre.length + 1 = (pre ++ [c]).length by simp, hih]
        simp [unescapeDataSpec]
      | [b] =>
        have hna : ¬((pre ++ [c, b]).get? pre.length = some '%' ∧
            pre.length + 2 < (pre ++ [c, b]).length) := by
          rintro ⟨-, h2⟩
          simp at h2
        rw [if_neg hna]
        have harr : pre ++ [c, b] = (pre ++ [c]) ++ [b] := by simp
        have hih := ih [b] (pre ++ [c]) (by simp at hf ⊢; omega)
        rw [harr, show pre.length + 1 = (pre ++ [c]).length by simp, hih]
        simp [unescapeDataSpec]
      | b :: a :: r2 =>
        have hflen : r2.length ≤ fuel := by
          simp at hf
          omega
        have hflen3 : (b :: a :: r2).length ≤ fuel := by
          simp at hf ⊢
          omega
        rw [show (c :: b :: a :: r2).get? 1 = some b from rfl] at hg1
        rw [show (c :: b :: a :: r2).get? 2 = some a from rfl] at hg2
        by_cases hc : c = '%'
        · subst hc
          have hA : ((pre ++ '%' :: b :: a :: r2).get? pre.length = some '%' ∧
              pre.length + 2 < (pre ++ '%' :: b :: a :: r2).length) := by
            refine ⟨hg0, by simp⟩
          rw [if_pos hA, hg1, hg2]
          simp only [Option.some.injEq]
          have hspec : unescapeDataSpec ('%' :: b :: a :: r2) =
              (if b = '0' ∧ (a = 'A' ∨ a = 'a') then '\n' :: unescapeDataSpec r2
               else if b = '0' ∧ (a = 'D' ∨ a = 'd') then '\r' :: unescapeDataSpec r2
               else if b = '2' ∧ a = '5' then '%' :: unescapeDataSpec r2
               else '%' :: unescapeDataSpec (b :: a :: r2)) := by
            simp [unescapeDataSpec]
          rw [hspec]
          by_cases t1 : b = '0' ∧ (a = 'A' ∨ a = 'a')
          · rw [if_pos t1, if_pos t1, unescape_append,
              show pre.length + 1 = (pre ++ ['\n']).length by simp,
              ih r2 (pre ++ ['\n']) hflen]
            simp
          · rw [if_neg t1, if_neg t1]
            by_cases t2 : b = '0' ∧ (a = 'D' ∨ a = 'd')
            · rw [if_pos t2, if_pos t2, unescape_append,
                show pre.length + 1 = (pre ++ ['\r']).length by simp,
                ih r2 (pre ++ ['\r']) hflen]
              simp
            · rw [if_neg t2, if_neg t2]
              by_cases t3 : b = '2' ∧ a = '5'
              · rw [if_pos t3, if_pos t3, unescape_append,
                  show pre.length + 1 = (pre ++ ['%']).length by simp,
                  ih r2 (pre ++ ['%']) hflen]
                simp
              · rw [if_neg t3, if_neg t3,
                  show pre ++ '%' :: b :: a :: r2 = (pre ++ ['%']) ++ b :: a :: r2 by simp,
                  show pre.length + 1 = (pre ++ ['%']).length by simp,
                  ih (b :: a :: r2) (pre ++ ['%']) hflen3]
                simp
        · have hna : ¬((pre ++ c :: b :: a :: r2).get? pre.length = some '%' ∧
              pre.length + 2 < (pre ++ c :: b :: a :: r2).length) := by
            rintro ⟨h1, -⟩
            rw [hg0] at h1
            exact hc (by simpa using h1)
          rw [if_neg hna,
            show pre ++ c :: b :: a :: r2 = (pre ++ [c]) ++ b :: a :: r2 by simp,
            show pre.length + 1 = (pre ++ [c]).length by simp,
            ih (b :: a :: r2) (pre ++ [c]) hflen3]
          have hspec : unescapeDataSpec (c :: b :: a :: r2) =
              c :: unescapeDataSpec (b :: a :: r2) := by
            simp [unescapeDataSpec, hc]
          rw [hspec]
          simp

theorem unescPropLoop_eq :
    ∀ (fuel : Nat) (rest pre : List Char), rest.length ≤ fuel →
      unescPropLoop fuel (pre ++ rest) pre.length = pre ++ unescapePropSpec rest := by
  intro fuel
  induction fuel with
  | zero =>
    intro rest pre hf
    have h0 : rest = [] := List.eq_nil_of_length_eq_zero (Nat.le_zero.mp hf)
    subst h0
    simp [unescPropLoop, unescapePropSpec]
  | succ fuel ih =>
    intro rest pre hf
    match rest with
    | [] => simp [unescPropLoop, unescapePropSpec]
    | c :: r =>
      have hg0 : (pre ++ c :: r).get? pre.length = some c := by
        have h := getq_add pre (c :: r) 0
        simpa using h
      have hg1 : (pre ++ c :: r).get? (pre.length + 1) = (c :: r).get? 1 :=
        getq_add pre (c :: r) 1
      have hg2 : (pre ++ c :: r).get? (pre.length + 2) = (c :: r).get? 2 :=
        getq_add pre (c :: r) 2
      have hi : pre.length < (pre ++ c :: r).length := by simp
      simp only [unescPropLoop, if_pos hi]
      match r with
      | [] =>
        have hna : ¬((pre ++ [c]).get? pre.length = some '%' ∧
            pre.length + 2 < (pre ++ [c]).length) := by
          rintro ⟨-, h2⟩
          simp at h2
        rw [if_neg hna]
        have hih := ih [] (pre ++ [c]) (by simp)
        simp only [List.append_nil] at hih
        rw [show pre.length + 1 = (pre ++ [c]).length by simp, hih]
        simp [unescapePropSpec]
      | [b] =>
        have hna : ¬((pre ++ [c, b]).get? pre.length = some '%' ∧
            pre.length + 2 < (pre ++ [c, b]).length) := by
          rintro ⟨-, h2⟩
          simp at h2
        rw [if_neg hna]
        have harr : pre ++ [c, b] = (pre ++ [c]) ++ [b] := by simp
        have hih := ih [b] (pre ++ [c]) (by simp at hf ⊢; omega)
        rw [harr, show pre.length + 1 = (pre ++ [c]).length by simp, hih]
        simp [unescapePropSpec]
      | b :: a :: r2 =>
        have hflen : r2.length ≤ fuel := by
          simp at hf
          omega
        have hflen3 : (b :: a :: r2).length ≤ fuel := by
          simp at hf ⊢
          omega
        rw [show (c :: b :: a :: r2).get? 1 = some b from rfl] at hg1
        rw [show (c :: b :: a :: r2).get? 2 = some a from rfl] at hg2
        by_cases hc : c = '%'
        · subst hc
          have hA : ((pre ++ '%' :: b :: a :: r2).get? pre.length = some '%' ∧
              pre.length + 2 < (pre ++ '%' :: b :: a :: r2).length) := by
            refine ⟨hg0, by simp⟩
          rw [if_pos hA, hg1, hg2]
          simp only [Option.some.injEq]
          have hspec : unescapePropSpec ('%' :: b :: a :: r2) =
              (if b = '0' ∧ (a = 'A' ∨ a = 'a') then '\n' :: unescapePropSpec r2
               else if b = '0' ∧ (a = 'D' ∨ a = 'd') then '\r' :: unescapePropSpec r2
               else if b = '2' ∧ a = '5' then '%' :: unescapePropSpec r2
               else if b = '2' ∧ (a = 'C' ∨ a = 'c') then ',' :: unescapePropSpec r2
               else if b = '3' ∧ (a = 'A' ∨ a = 'a') then ':' :: unescapePropSpec r2
               else '%' :: unescapePropSpec (b :: a :: r2)) := by
            simp [unescapePropSpec]
          rw [hspec]
          by_cases t1 : b = '0' ∧ (a = 'A' ∨ a = 'a')
          · rw [if_pos t1, if_pos t1, unescape_append,
              show pre.length + 1 = (pre ++ ['\n']).length by simp,
              ih r2 (pre ++ ['\n']) hflen]
            simp
          · rw [if_neg t1, if_neg t1]
            by_cases t2 : b = '0' ∧ (a = 'D' ∨ a = 'd')
            · rw [if_pos t2, if_pos t2, unescape_append,
                show pre.length + 1 = (pre ++ ['\r']).length by simp,
                ih r2 (pre ++ ['\r']) hflen]
              simp
            · rw [if_neg t2, if_neg t2]
              by_cases t3 : b = '2' ∧ a = '5'
              · rw [if_pos t3, if_pos t3, unescape_append,
                  show pre.length + 1 = (pre ++ ['%']).length by simp,
                  ih r2 (pre ++ ['%']) hflen]
                simp
              · rw [if_neg t3, if_neg t3]
                by_cases t4 : b = '2' ∧ (a = 'C' ∨ a = 'c')
                · rw [if_pos t4, if_pos t4, unescape_append,
                    show pre.length + 1 = (pre ++ [',']).length by simp,
                    ih r2 (pre ++ [',']) hflen]
                  simp
                · rw [if_neg t4, if_neg t4]
                  by_cases t5 : b = '3' ∧ (a = 'A' ∨ a = 'a')
                  · rw [if_pos t5, if_pos t5, unescape_append,
                      show pre.length + 1 = (pre ++ [':']).length by simp,
                      ih r2 (pre ++ [':']) hflen]
                    simp
                  · rw [if_neg t5, if_neg t5,
                      show pre ++ '%' :: b :: a :: r2 = (pre ++ ['%']) ++ b :: a :: r2 by simp,
                      show pre.length + 1 = (pre ++ ['%']).length by simp,
                      ih (b :: a :: r2) (pre ++ ['%']) hflen3]
                    simp
        · have hna : ¬((pre ++ c :: b :: a :: r2).get? pre.length = some '%' ∧
              pre.length + 2 < (pre ++ c :: b :: a :: r2).length) := by
            rintro ⟨h1, -⟩
            rw [hg0] at h1
            exact hc (by simpa using h1)
          rw [if_neg hna,
            show pre ++ c :: b :: a :: r2 = (pre ++ [c]) ++ b :: a :: r2 by simp,
            show pre.length + 1 = (pre ++ [c]).length by simp,
            ih (b :: a :: r2) (pre ++ [c]) hflen3]
          have hspec : unescapePropSpec (c :: b :: a :: r2) =
              c :: unescapePropSpec (b :: a :: r2) := by
            simp [unescapePropSpec, hc]
          rw [hspec]
          simp

theorem unescapePropSpec_nil_iff (s : List Char) :
    unescapePropSpec s = [] ↔ s = [] := by
  match s with
  | [] => simp [unescapePropSpec]
  | [c] => simp [unescapePropSpec]
  | [c, b] => simp [unescapePropSpec]
  | c :: b :: a :: r2 =>
    simp only [unescapePropSpec]
    split_ifs <;> simp

theorem unescapeData_eq_spec (s : List Char) :
    unescapeData s = unescapeDataSpec s := by
  unfold unescapeData
  by_cases hs : s = []
  · subst hs
    simp [unescapeDataSpec]
  · rw [if_neg hs]
    have h := unescDataLoop_eq s.length s [] (Nat.le_refl _)
    simpa using h

theorem unescapeProperty_eq_spec (s : List Char) :
    unescapeProperty s =
      if unescapePropSpec s = [] then none else some (unescapePropSpec s) := by
  unfold unescapeProperty
  by_cases hs : s = []
  · subst hs
    simp [unescapePropSpec]
  · rw [if_neg hs, if_neg (fun h => hs ((unescapePropSpec_nil_iff s).mp h))]
    have h := unescPropLoop_eq s.length s [] (Nat.le_refl _)
    simpa using h

/-- C6: the unescaping of a parsed command recognizes in the data field
exactly the escapes of `unescapeDataSpec` (`%0A`, `%0D`, `%25`, hex letter
case-insensitive), in a property value exactly those of
`unescapePropSpec` (additionally `%2C` and `%3A`), and the parser's
property-store step leaves out every property whose unescaped value is
empty while storing every other one under its unescaped value. -/
theorem unescape_exact_escapes :
    (∀ s, unescapeData s = unescapeDataSpec s)
    ∧ (∀ s, unescapeProperty s =
        if unescapePropSpec s = [] then none else some (unescapePropSpec s))
    ∧ (∀ opt key raw, unescapePropSpec raw = [] → storeProp opt key raw = opt)
    ∧ (∀ opt key raw, unescapePropSpec raw ≠ [] →
        storeProp opt key raw = mapSet opt key (unescapePropSpec raw)) := by
  refine ⟨unescapeData_eq_spec, unescapeProperty_eq_spec, ?_, ?_⟩
  · intro opt key raw h
    have hraw : raw = [] := (unescapePropSpec_nil_iff raw).mp h
    subst hraw
    rfl
  · intro opt key raw h
    unfold storeProp
    rw [unescapeProperty_eq_spec, if_neg h]

/-- C6 witness: concrete escapes in data and property values, and the
empty-value property dropped while a non-empty one is stored. -/
theorem unescape_exact_escapes_witness :
    unescapeData (toChars "a%0ab%0D%25%2C") = toChars ("a\nb\x0d" ++ "%%2C")
    ∧ unescapeProperty (toChars "x%2Cy%3a") = some (toChars "x,y:")
    ∧ storeProp [] (toChars "k") [] = []
    ∧ storeProp [] (toChars "k") (toChars "v") = [(toChars "k", toChars "v")] := by
  refine ⟨?_, ?_, ?_, ?_⟩
  · rw [unescape_exact_escapes.1]
    decide
  · rw [unescape_exact_escapes.2.1]
    decide
  · exact unescape_exact_escapes.2.2.1 [] (toChars "k") [] (by decide)
  · rw [unescape_exact_escapes.2.2.2 [] (toChars "k") (toChars "v") (by decide)]
    decide


/-! ## Equivalence of the splitter with its specification -/

theorem breakLine_none {s l : List Char}
    (h : breakLine s = (l, (none : Option (List Char)))) : l = s := by
  induction s generalizing l with
  | nil => simpa [breakLine] using h.symm
  | cons c cs ih =>
    match cs with
    | [] =>
      simp only [breakLine] at h
      split_ifs at h <;> simp_all
    | c2 :: r0 =>
      simp only [breakLine] at h
      split_ifs at h <;> simp_all
      obtain ⟨h1, h2⟩ := h
      have := ih (l := (breakLine (c2 :: r0)).1) (by rw [← h2])
      simp_all

theorem breakLine_drop {s l r : List Char} (h : breakLine s = (l, some r)) :
    s.drop (s.length - r.length) = r := by
  induction s generalizing l r with
  | nil => simp [breakLine] at h
  | cons c cs ih =>
    match cs with
    | [] =>
      simp only [breakLine] at h
      split_ifs at h <;> simp_all
    | c2 :: r0 =>
      simp only [breakLine] at h
      split_ifs at h
      · cases h
        simp
      · cases h
        have hl : ∀ (x : List Char), (c :: c2 :: x).length - x.length = 2 := by
          intro x
          simp only [List.length_cons]
          omega
        rw [hl]
        rfl
      · cases h
        simp
      · simp only [Prod.mk.injEq] at h
        obtain ⟨-, h2⟩ := h
        have hlen : r.length < (c2 :: r0).length :=
          breakLine_some_length (l := (breakLine (c2 :: r0)).1) (by rw [← h2])
        have hdrop := ih (l := (breakLine (c2 :: r0)).1) (r := r) (by rw [← h2])
        have harith : (c :: c2 :: r0).length - r.length =
            ((c2 :: r0).length - r.length) + 1 := by
          simp at hlen ⊢
          omega
        rw [harith, List.drop_succ_cons, hdrop]

theorem scanLines_nil (fuel : Nat) : scanLines fuel [] = [] := by
  cases fuel with
  | zero => rfl
  | succ f => simp [scanLines, splitFunc]

theorem splitScan_break :
    ∀ (fuel : Nat) (rest pre : List Char), rest.length < fuel →
      (∀ x ∈ pre, x ≠ '\n' ∧ x ≠ '\r') →
      splitScan fuel (pre ++ rest) pre.length =
        ((breakLine rest).2).map
          (fun r => ((pre ++ rest).length - r.length, pre ++ (breakLine rest).1)) := by
  intro fuel
  induction fuel with
  | zero =>
    intro rest pre hf hclean
    omega
  | succ fuel ih =>
    intro rest pre hf hclean
    match rest with
    | [] =>
      simp [splitScan, breakLine]
    | c :: r =>
      have hg0 : (pre ++ c :: r).get? pre.length = some c := by
        have h := getq_add pre (c :: r) 0
        simpa using h
      have hi : pre.length < (pre ++ c :: r).length := by simp
      have hprev : ¬(0 < pre.length ∧
          (pre ++ c :: r).get? (pre.length - 1) = some '\r') := by
        rintro ⟨hpos, hr⟩
        rw [List.get?_append (by omega)] at hr
        exact ((hclean _ (List.get?_mem hr)).2 rfl).elim
      simp only [splitScan, if_pos hi]
      by_cases hcn : c = '\n'
      · subst hcn
        rw [if_pos hg0, if_neg hprev]
        have hbl : breakLine ('\n' :: r) = ([], some r) := by
          cases r <;> simp [breakLine]
        rw [hbl, List.take_left]
        simp
        all_goals omega
      · by_cases hcr : c = '\r'
        · subst hcr
          rw [if_neg (by rw [hg0]; simp [hcn]), if_pos hg0]
          match r with
          | [] =>
            have hlast : pre.length = (pre ++ ['\r']).length - 1 := by simp
            rw [if_pos (Or.inl hlast)]
            simp [breakLine, List.take_left]
          | c2 :: r2 =>
            have hg1 : (pre ++ '\r' :: c2 :: r2).get? (pre.length + 1) = some c2 := by
              have h := getq_add pre ('\r' :: c2 :: r2) 1
              simpa using h
            by_cases h2 : c2 = '\n'
            · subst h2
              have hcond : ¬(pre.length = (pre ++ '\r' :: '\n' :: r2).length - 1 ∨
                  (pre ++ '\r' :: '\n' :: r2).get? (pre.length + 1) ≠ some '\n') := by
                rintro (ha | hb)
                · simp at ha
                · exact hb hg1
              rw [if_neg hcond]
              have hfuel2 : 1 ≤ fuel := by simp at hf; omega
              match fuel, hfuel2 with
              | f2 + 1, _ =>
                have hi2 : pre.length + 1 < (pre ++ '\r' :: '\n' :: r2).length := by
                  simp
                simp only [splitScan, if_pos hi2]
                rw [if_pos hg1]
                have hpos2 : (0 < pre.length + 1 ∧
                    (pre ++ '\r' :: '\n' :: r2).get? (pre.length + 1 - 1) = some '\r') := by
                  constructor
                  · omega
                  · simpa using hg0
                rw [if_pos hpos2]
                have htake : (pre ++ '\r' :: '\n' :: r2).take (pre.length + 1 - 1) = pre := by
                  simpa using List.take_left pre ('\r' :: '\n' :: r2)
                rw [htake]
                simp only [breakLine, if_neg (by decide : ¬('\r' : Char) = '\n'),
                  if_pos rfl, if_pos rfl]
                simp
                all_goals omega
            · have hcond : (pre.length = (pre ++ '\r' :: c2 :: r2).length - 1 ∨
                  (pre ++ '\r' :: c2 :: r2).get? (pre.length + 1) ≠ some '\n') := by
                right
                rw [hg1]
                simp [h2]
              rw [if_pos hcond, List.take_left]
              simp only [breakLine, if_neg (by decide : ¬('\r' : Char) = '\n'),
                if_pos rfl, if_neg h2]
              simp
              all_goals omega
        · rw [if_neg (by rw [hg0]; simp [hcn]), if_neg (by rw [hg0]; simp [hcr])]
          have harr : pre ++ c :: r = (pre ++ [c]) ++ r := by simp
          have hclean2 : ∀ x ∈ pre ++ [c], x ≠ '\n' ∧ x ≠ '\r' := by
            intro x hx
            rcases List.mem_append.mp hx with hx | hx
            · exact hclean x hx
            · simp at hx
              subst hx
              exact ⟨hcn, hcr⟩
          have hih := ih r (pre ++ [c]) (by simp at hf ⊢; omega) hclean2
          rw [harr, show pre.length + 1 = (pre ++ [c]).length by simp, hih]
          match r with
          | [] =>
            simp [breakLine, hcn, hcr]
          | c2 :: r2 =>
            have hbl : breakLine (c :: c2 :: r2) =
                (c :: (breakLine (c2 :: r2)).1, (breakLine (c2 :: r2)).2) := by
              simp only [breakLine, if_neg hcn, if_neg hcr]
            rw [hbl]
            cases hb2 : (breakLine (c2 :: r2)).2 with
            | none => simp
            | some rr => simp [List.append_assoc]

theorem scanLines_eq_spec :
    ∀ (fuel : Nat) (s : List Char), s.length < fuel →
      scanLines fuel s = splitLinesSpec s := by
  intro fuel
  induction fuel with
  | zero =>
    intro s h
    omega
  | succ fuel ih =>
    intro s hf
    by_cases hs : s = []
    · subst hs
      simp [scanLines, splitFunc, splitLinesSpec]
    · have hscan := splitScan_break (s.length + 1) s [] (by omega) (by simp)
      simp only [List.nil_append, List.length_nil] at hscan
      rcases hbl : breakLine s with ⟨l, t⟩
      rw [hbl] at hscan
      cases t with
      | none =>
        have hl : l = s := breakLine_none hbl
        subst hl
        simp only [Option.map_none'] at hscan
        have hsf : splitFunc l true = (l.length, some l) := by
          unfold splitFunc
          rw [if_neg (by simp [hs]), hscan]
          rfl
        have hstep : scanLines (fuel + 1) l = l :: scanLines fuel (l.drop l.length) := by
          simp only [scanLines, hsf]
        rw [hstep, List.drop_length, scanLines_nil]
        conv_rhs => rw [splitLinesSpec.eq_def]
        rw [if_neg hs]
        split
        · rename_i l2 heq
          rw [hbl] at heq
          cases heq
          rfl
        · rename_i l2 r2 heq
          rw [hbl] at heq
          cases heq
      | some r =>
        have hdrop : s.drop (s.length - r.length) = r := breakLine_drop hbl
        have hlen : r.length < s.length := breakLine_some_length hbl
        simp only [Option.map_some'] at hscan
        have hsf : splitFunc s true = (s.length - r.length, some l) := by
          unfold splitFunc
          rw [if_neg (by simp [hs]), hscan]
        have hstep : scanLines (fuel + 1) s =
            l :: scanLines fuel (s.drop (s.length - r.length)) := by
          simp only [scanLines, hsf]
        rw [hstep, hdrop, ih r (by omega)]
        conv_rhs => rw [splitLinesSpec.eq_def]
        rw [if_neg hs]
        split
        · rename_i l2 heq
          rw [hbl] at heq
          cases heq
        · rename_i l2 r2 heq
          rw [hbl] at heq
          cases heq
          rfl

/-- C7: on the complete input, the scanner driven by `splitFunc` produces
exactly the lines obtained by cutting at every LF, CRLF or bare-CR
terminator, terminators stripped, with unterminated trailing bytes as one
final line. -/
theorem splitFunc_lines_spec (s : List Char) : scanLinesAll s = splitLinesSpec s :=
  scanLines_eq_spec (s.length + 1) s (Nat.lt_succ_self _)

end Surreallog
